import Mathlib

/-!
Verification of the log-analyzer core (src/App.js): schema inference
(`extractAllKeys` / `analyzeLogStructure`), dotted-path resolution
(`getNestedValue`), the filter/sort comparator pipeline (`processedLogs`),
pagination (`paginatedLogs`) and timestamp parsing (`parseTimestamp`).

The JavaScript values a parsed NDJSON record can hold are modelled by the
inductive `JVal` (null, booleans, numbers, strings, arrays, objects).
JavaScript numbers are modelled by exact rationals (`ℚ`) plus the three
non-finite doubles (`JNum`): double rounding and overflow are outside the
model, which is exact on the decimal literals JSON carries.  `undefined` is
`Option.none` at the points where the code can produce it.  Host
primitives with engine- or locale-dependent behaviour (`new Date(string)`
generic parsing and `Date.prototype.getFullYear`, which depends on the
local timezone) are taken as parameters of the definitions that use them,
so every theorem holds for all their behaviours.
-/

namespace LogAnalyzer

/-- A JavaScript/JSON value as held by a parsed log record. -/
inductive JVal where
  | null : JVal
  | bool (b : Bool) : JVal
  | num (q : ℚ) : JVal
  | str (s : String) : JVal
  | arr (elems : List JVal) : JVal
  | obj (fields : List (String × JVal)) : JVal

/-- JavaScript truthiness of a `JVal` (`NaN` cannot be stored in JSON). -/
def jsTruthy : JVal → Bool
  | .null => false
  | .bool b => b
  | .num q => decide (q ≠ 0)
  | .str s => decide (s ≠ "")
  | .arr _ => true
  | .obj _ => true

/-- Truthiness of a possibly-`undefined` value. -/
def optTruthy : Option JVal → Bool
  | none => false
  | some v => jsTruthy v

/-- `x || d` for a possibly-`undefined` `x`: `x` when truthy, else `d`. -/
def jsOr (x : Option JVal) (d : JVal) : JVal :=
  match x with
  | some v => if jsTruthy v then v else d
  | none => d

/-- Numeric value of a decimal digit character. -/
def charDigit (c : Char) : Nat := c.toNat - 48

/-- The natural number a list of decimal digit characters denotes
(the model of `parseInt` on an all-digit string). -/
def parseDigits (cs : List Char) : Nat :=
  cs.foldl (fun acc c => acc * 10 + charDigit c) 0

/-- A canonical array index string: nonempty, all digits, no leading zero
(except `"0"` itself).  JavaScript `arr[s]` hits an element exactly for
these strings. -/
def canonIndex (s : String) : Option Nat :=
  if s ≠ "" ∧ s.data.all Char.isDigit ∧ (s = "0" ∨ s.data.head? ≠ some '0') then
    some (parseDigits s.data)
  else none

/-- First-match association lookup among an object's fields (JS objects
cannot repeat keys; the list model keeps the first occurrence). -/
def lookupField : List (String × JVal) → String → Option JVal
  | [], _ => none
  | (k, v) :: rest, key => if k = key then some v else lookupField rest key

/-- JavaScript property access `v[key]` for the value shapes the records
hold: objects by key, arrays and strings by canonical index (plus their
`length`), nothing on other primitives.  Method properties are outside the
model. -/
def jsGet (v : JVal) (key : String) : Option JVal :=
  match v with
  | .obj fs => lookupField fs key
  | .arr l =>
      if key = "length" then some (.num l.length)
      else match canonIndex key with
        | some i => l.get? i
        | none => none
  | .str s =>
      if key = "length" then some (.num s.data.length)
      else match canonIndex key with
        | some i => (s.data.get? i).map (fun c => .str (String.mk [c]))
        | none => none
  | _ => none

/-- Split a character list on every occurrence of `c` (the semantics of
JavaScript `String.prototype.split` with a one-character separator). -/
def splitOnChar (c : Char) : List Char → List (List Char)
  | [] => [[]]
  | x :: xs =>
    match splitOnChar c xs with
    | [] => [[]]
    | h :: t => if x = c then [] :: h :: t else (x :: h) :: t

/-- `path.split('.')` as the code performs it. -/
def splitDots (s : String) : List String :=
  (splitOnChar '.' s.data).map String.mk

/-- Whether a key contains a literal `'.'` character (`key.includes('.')`). -/
def hasDot (s : String) : Bool := decide ('.' ∈ s.data)

/-- One step of the `reduce` in `getNestedValue`:
`current && current[key] !== undefined ? current[key] : undefined`. -/
def nestedStep (cur : Option JVal) (key : String) : Option JVal :=
  match cur with
  | some c => if jsTruthy c then (match jsGet c key with
      | some v => some v
      | none => none)
    else none
  | none => none

/-- `getNestedValue(obj, path)` from src/App.js (lines 185-195): first the
whole path as a literal key, then a fold over the dot-separated segments. -/
def getNestedValue (obj : JVal) (path : String) : Option JVal :=
  if jsTruthy obj ∧ (jsGet obj path).isSome then jsGet obj path
  else (splitDots path).foldl nestedStep (some obj)

/-- Specification-side recursive traversal over path segments: stop with
`undefined` as soon as the current value is falsy or lacks the segment. -/
def walkSegs : JVal → List String → Option JVal
  | v, [] => some v
  | v, k :: ks =>
    if jsTruthy v then
      match jsGet v k with
      | some w => walkSegs w ks
      | none => none
    else none

theorem foldl_nestedStep_none (ks : List String) :
    ks.foldl nestedStep none = none := by
  induction ks with
  | nil => rfl
  | cons a l ih => simpa [nestedStep] using ih

theorem foldl_nestedStep_eq_walkSegs (v : JVal) (ks : List String) :
    ks.foldl nestedStep (some v) = walkSegs v ks := by
  induction ks generalizing v with
  | nil => rfl
  | cons k ks ih =>
    simp only [List.foldl_cons, walkSegs, nestedStep]
    by_cases hv : jsTruthy v
    · simp only [hv, if_true]
      cases hg : jsGet v k with
      | some w => exact ih w
      | none => exact foldl_nestedStep_none ks
    · simp only [hv, if_false]
      exact foldl_nestedStep_none ks

/-! ### String conversion (`String(value)`) -/

/-- Decimal digits of the fractional part of `r / d`, at most `fuel` of
them (JavaScript prints a double's shortest round-tripping decimal; the
exact rationals of this model print their exact finite expansion, cut at
`fuel` digits when infinite). -/
def natFracDigits (r d : Nat) : Nat → List Char
  | 0 => []
  | fuel + 1 =>
    if r = 0 then []
    else Char.ofNat (48 + r * 10 / d) :: natFracDigits (r * 10 % d) d fuel

/-- String form of a JavaScript number held exactly as a rational:
integer part, then `.` and the fractional digits when nonzero.
(`-0` prints as `"0"`, as in JavaScript; exponent notation for very large
or very small doubles is outside the model.) -/
def qToString (q : ℚ) : String :=
  let sign := if q < 0 then "-" else ""
  let n := q.num.natAbs
  let ip := n / q.den
  let frac := natFracDigits (n % q.den) q.den 30
  if frac.isEmpty then sign ++ toString ip
  else sign ++ toString ip ++ "." ++ String.mk frac

mutual

/-- JavaScript `String(value)` for the modelled value shapes. -/
def jsToString : JVal → String
  | .null => "null"
  | .bool b => if b then "true" else "false"
  | .num q => qToString q
  | .str s => s
  | .arr l => joinComma l
  | .obj _ => "[object Object]"

/-- `Array.prototype.toString`: elements joined by `","`, with `null`
rendered as the empty string. -/
def joinComma : List JVal → String
  | [] => ""
  | .null :: rest => (if rest.isEmpty then "" else ",") ++ joinComma rest
  | v :: rest => jsToString v ++ (if rest.isEmpty then "" else ",") ++ joinComma rest

end

/-! ### Numeric coercion (`Number(value)`) -/

/-- The value class of a JavaScript number: NaN, the two infinities, or a
finite value (held exactly as a rational). -/
inductive JNum where
  | nan : JNum
  | posInf : JNum
  | negInf : JNum
  | fin (q : ℚ) : JNum
deriving DecidableEq

def jnumIsNaN : JNum → Bool
  | .nan => true
  | _ => false

/-- JavaScript whitespace stripped by `Number(string)` (the common
characters; the full Unicode whitespace set behaves identically on them). -/
def isWsChar (c : Char) : Bool :=
  c = ' ' ∨ c = '\t' ∨ c = '\n' ∨ c = '\r' ∨ c = '\x0b' ∨ c = '\x0c' ∨ c = ' '

def trimWs (cs : List Char) : List Char :=
  ((cs.dropWhile isWsChar).reverse.dropWhile isWsChar).reverse

/-- Parse an unsigned decimal literal `digits [. digits] [(e|E) [sign] digits]`
occupying the whole input (the decimal part of the StringNumericLiteral
grammar; hex/octal/binary literals are outside the model). -/
def parseDec (cs : List Char) : Option ℚ :=
  let ip := cs.takeWhile Char.isDigit
  let r1 := cs.dropWhile Char.isDigit
  let fp := match r1 with
    | '.' :: rest => rest.takeWhile Char.isDigit
    | _ => []
  let r2 := match r1 with
    | '.' :: rest => rest.dropWhile Char.isDigit
    | _ => r1
  if ip.isEmpty ∧ fp.isEmpty then none
  else
    let mant : ℚ := (parseDigits ip : ℚ) + (parseDigits fp : ℚ) / (10 : ℚ) ^ fp.length
    match r2 with
    | [] => some mant
    | e :: rest =>
      if e = 'e' ∨ e = 'E' then
        let esign : ℤ := match rest with
          | '-' :: _ => -1
          | _ => 1
        let rest2 := match rest with
          | '-' :: t => t
          | '+' :: t => t
          | t => t
        let ed := rest2.takeWhile Char.isDigit
        if ed.isEmpty ∨ ¬ (rest2.dropWhile Char.isDigit).isEmpty then none
        else some (mant * (10 : ℚ) ^ (esign * (parseDigits ed : ℤ)))
      else none

def parseUnsigned (cs : List Char) (neg : Bool) : JNum :=
  if cs = ['I', 'n', 'f', 'i', 'n', 'i', 't', 'y'] then
    if neg then .negInf else .posInf
  else
    match parseDec cs with
    | some q => .fin (if neg then -q else q)
    | none => .nan

def parseSigned : List Char → JNum
  | '+' :: rest => parseUnsigned rest false
  | '-' :: rest => parseUnsigned rest true
  | cs => parseUnsigned cs false

/-- `Number(string)`: trimmed empty input is `0`, otherwise an optionally
signed `Infinity` or decimal literal, else NaN. -/
def strToNumber (s : String) : JNum :=
  match trimWs s.data with
  | [] => .fin 0
  | cs => parseSigned cs

/-- `Number(value)` on the modelled value shapes: arrays convert through
their string form, plain objects are NaN (`"[object Object]"`). -/
def jsToNumber : JVal → JNum
  | .null => .fin 0
  | .bool b => .fin (if b then 1 else 0)
  | .num q => .fin q
  | .str s => strToNumber s
  | .arr l => strToNumber (jsToString (.arr l))
  | .obj _ => .nan

/-! ### The sort comparator (`processedLogs`, src/App.js lines 401-424) -/

/-- JavaScript subtraction on number classes (`aNum - bNum`). -/
def jnumSub : JNum → JNum → JNum
  | .nan, _ => .nan
  | _, .nan => .nan
  | .posInf, .posInf => .nan
  | .negInf, .negInf => .nan
  | .posInf, _ => .posInf
  | .negInf, _ => .negInf
  | .fin _, .posInf => .negInf
  | .fin _, .negInf => .posInf
  | .fin a, .fin b => .fin (a - b)

/-- The sign with which `Array.prototype.sort` reads a comparator result
(a NaN result counts as `0`). -/
def jnumSign : JNum → ℤ
  | .nan => 0
  | .posInf => 1
  | .negInf => -1
  | .fin q => if q < 0 then -1 else if 0 < q then 1 else 0

inductive SortDir where
  | ascending : SortDir
  | descending : SortDir
deriving DecidableEq

/-- The comparator body applied to the two effective cell values
(after the `|| ''` defaulting): numeric when neither side coerces to NaN,
else lexicographic string comparison; `descending` swaps the operands. -/
def compareVals (dir : SortDir) (aValue bValue : JVal) : JNum :=
  let aNum := jsToNumber aValue
  let bNum := jsToNumber bValue
  if !jnumIsNaN aNum && !jnumIsNaN bNum then
    match dir with
    | .ascending => jnumSub aNum bNum
    | .descending => jnumSub bNum aNum
  else
    let aStr := jsToString aValue
    let bStr := jsToString bValue
    if aStr < bStr then .fin (match dir with | .ascending => -1 | .descending => 1)
    else if bStr < aStr then .fin (match dir with | .ascending => 1 | .descending => -1)
    else .fin 0

/-- The full comparator of `processedLogs`: resolve the sort key on both
records, default falsy values to `''`, then compare. -/
def jsCompare (key : String) (dir : SortDir) (a b : JVal) : JNum :=
  compareVals dir (jsOr (getNestedValue a key) (.str ""))
    (jsOr (getNestedValue b key) (.str ""))

/-- The comparator's sign as the sort consumes it. -/
def cmpSign (key : String) (dir : SortDir) (a b : JVal) : ℤ :=
  jnumSign (jsCompare key dir a b)

/-! ### Stable sort, filtering, pagination -/

/-- Insert `x` before the first element `y` with `le x y` (the placement a
stable comparator sort gives an element relative to already-sorted later
elements). -/
def insertLE {α : Type} (le : α → α → Bool) (x : α) : List α → List α
  | [] => [x]
  | y :: ys => if le x y then x :: y :: ys else y :: insertLE le x ys

/-- Stable insertion sort: the model of `Array.prototype.sort` with a
comparator (ECMAScript requires the sort to be stable; all stable sorts
agree on a consistent comparator). -/
def sortStable {α : Type} (le : α → α → Bool) : List α → List α
  | [] => []
  | x :: xs => insertLE le x (sortStable le xs)

/-- The sorting stage of `processedLogs`: identity when no sort key is
active, else a stable sort by the comparator's sign. -/
def applySort (key? : Option String) (dir : SortDir) (logs : List JVal) : List JVal :=
  match key? with
  | none => logs
  | some key => sortStable (fun a b => decide (cmpSign key dir a b ≤ 0)) logs

/-- ASCII lowercasing, the model of `String.prototype.toLowerCase` (full
Unicode case mapping agrees with it on ASCII data). -/
def jsToLower (s : String) : String := String.mk (s.data.map Char.toLower)

def isSubChars (pat : List Char) : List Char → Bool
  | [] => decide (pat = [])
  | c :: rest => pat.isPrefixOf (c :: rest) || isSubChars pat rest

/-- `s.includes(pat)` on strings. -/
def jsIncludes (s pat : String) : Bool := isSubChars pat.data s.data

/-- The string a record contributes to the filter test for one key:
`logValue ? String(logValue).toLowerCase() : ''` applied to
`getNestedValue(log, key)`. -/
def filterCellString (log : JVal) (key : String) : String :=
  match getNestedValue log key with
  | some v => if jsTruthy v then jsToLower (jsToString v) else ""
  | none => ""

/-- The filtering stage of `processedLogs` (src/App.js lines 390-398): a
record stays iff every filter entry with a truthy lowercased pattern finds
its pattern inside the record's lowercased cell string. -/
def applyFilters (filters : List (String × String)) (logs : List JVal) : List JVal :=
  logs.filter fun log =>
    filters.all fun kp =>
      let filterValue := jsToLower kp.2
      if filterValue = "" then true
      else jsIncludes (filterCellString log kp.1) filterValue

/-- `paginatedLogs` and `totalPages` (src/App.js lines 501-506), with the
fixed `itemsPerPage = 25` generalised to the page size: the slice
`[(page-1)*size, page*size)` of the processed list, and
`Math.ceil(length / size)` pages. -/
def paginate (logs : List JVal) (page size : Nat) : List JVal × Nat :=
  let startIndex := (page - 1) * size
  ((logs.drop startIndex).take size,
    Nat.ceil ((logs.length : ℚ) / (size : ℚ)))

/-! ### Schema inference (`extractAllKeys`, src/App.js lines 152-181) -/

/-- The test deciding whether a key counts toward the schema:
`value !== null && value !== undefined && value !== ''` (only the string
`''` is strictly unequal-exempt; `undefined` cannot be stored). -/
def meaningfulB : JVal → Bool
  | .null => false
  | .str s => decide (s ≠ "")
  | _ => true

/-- The keys `traverse(obj, pre)` records, in encounter order: a key whose
value is meaningful contributes its full path; recursion descends into
plain-object values — at the top level only for keys without a literal
dot, below it only while the accumulated path is shorter than 3
segments. -/
def collectFs (pre : String) : List (String × JVal) → List String
  | [] => []
  | (k, val) :: rest =>
    let fullKey := if pre = "" then k else pre ++ "." ++ k
    (if meaningfulB val then [fullKey] else []) ++
    (match val with
     | .obj fs2 =>
       if (pre = "" ∧ ¬ hasDot k) ∨ (pre ≠ "" ∧ (splitDots pre).length < 3) then
         collectFs fullKey fs2
       else []
     | _ => []) ++
    collectFs pre rest

/-- `traverse(record, '')`: only plain objects are walked. -/
def collectRecord : JVal → List String
  | .obj fs => collectFs "" fs
  | _ => []

/-- The keys of all records, concatenated. -/
def allCollected : List JVal → List String
  | [] => []
  | r :: rs => collectRecord r ++ allCollected rs

/-- Ordered duplicate-free insertion by the lexicographic string order
(the order JavaScript's default `Array.prototype.sort` gives string
keys). -/
def insertStr (x : String) : List String → List String
  | [] => [x]
  | y :: ys =>
    if x < y then x :: y :: ys
    else if x = y then y :: ys
    else y :: insertStr x ys

def sortedDedup (l : List String) : List String :=
  l.foldl (fun acc s => insertStr s acc) []

/-- `extractAllKeys(objects)`: the sorted, deduplicated set of paths that
carried a meaningful value in at least one record. -/
def extractAllKeys (logs : List JVal) : List String :=
  sortedDedup (allCollected logs)

/-! ### Timestamp parsing (`parseTimestamp`, src/App.js lines 88-120) -/

/-- The result of `parseTimestamp`: JavaScript `null`, or a `Date` —
which is itself either invalid (`dateR none`) or an instant in
milliseconds since the epoch. -/
inductive PTResult where
  | nullR : PTResult
  | dateR (ms : Option Int) : PTResult
deriving DecidableEq

/-- Truncation toward zero (`ToIntegerOrInfinity` inside the `Date`
constructor). -/
def ratTrunc (q : ℚ) : Int :=
  if 0 ≤ q then ⌊q⌋ else -⌊-q⌋

/-- `new Date(x)` for a numeric argument: truncate, then clip to the
±8.64e15 ms range (outside it the `Date` is invalid). -/
def mkDate (q : ℚ) : Option Int :=
  let ms := ratTrunc q
  if ms.natAbs ≤ 8640000000000000 then some ms else none

/-- `^\d{n}$`. -/
def isDigitsN (n : Nat) (s : String) : Bool :=
  decide (s.data.length = n) && s.data.all Char.isDigit

/-- `^\d{10}\.\d+$`: the ten integer digits and the fraction digits. -/
def decFrac10 (s : String) : Option (List Char × List Char) :=
  let ip := s.data.takeWhile Char.isDigit
  match s.data.dropWhile Char.isDigit with
  | '.' :: rest =>
    if ip.length = 10 ∧ rest ≠ [] ∧ rest.all Char.isDigit then some (ip, rest) else none
  | _ => none

/-- `^\d{10}(\.\d+)?$`. -/
def isDigits10Frac (s : String) : Bool :=
  isDigitsN 10 s || (decFrac10 s).isSome

/-- `^\d{4}-\d{2}-\d{2}T\d{2}:\d{2}:\d{2}`. -/
def isIsoPre (s : String) : Bool :=
  match s.data with
  | y1 :: y2 :: y3 :: y4 :: '-' :: m1 :: m2 :: '-' :: d1 :: d2 :: 'T' ::
      h1 :: h2 :: ':' :: n1 :: n2 :: ':' :: s1 :: s2 :: _ =>
    [y1, y2, y3, y4, m1, m2, d1, d2, h1, h2, n1, n2, s1, s2].all Char.isDigit
  | _ => false

/-- `parseTimestamp(timestamp)`.  `dfs` models the host's
`new Date(string)` parser for the ISO and generic branches (`none` =
Invalid Date); every theorem below holds for all its behaviours. -/
def parseTimestamp (dfs : String → Option Int) (v : Option JVal) : PTResult :=
  if optTruthy v = false then .nullR
  else match v with
  | some (.num q) => .dateR (mkDate (if 1000000000000 < q then q else q * 1000))
  | _ =>
    let str := jsToString (v.getD .null)
    if isDigitsN 10 str then .dateR (mkDate ((parseDigits str.data : ℚ) * 1000))
    else if isDigitsN 13 str then .dateR (mkDate (parseDigits str.data : ℚ))
    else match decFrac10 str with
    | some (ip, fr) =>
      .dateR (mkDate (((parseDigits ip : ℚ) + (parseDigits fr : ℚ) / (10 : ℚ) ^ fr.length) * 1000))
    | none =>
      if isIsoPre str then .dateR (dfs str)
      else match dfs str with
      | none => .nullR
      | some ms => .dateR (some ms)

/-! ### Structure analysis (`isTimestampColumn`, `analyzeLogStructure`) -/

/-- `isTimestampColumn(columnName, sampleValues)` (src/App.js lines
40-85).  `yearOf` models `Date.prototype.getFullYear`, which depends on
the host's local timezone. -/
def isTimestampColumn (dfs : String → Option Int) (yearOf : Int → Int)
    (columnName : String) (sampleValues : List JVal) : Bool :=
  let name := jsToLower columnName
  let nameMatches :=
    name = "ts" || name.startsWith "time" || name.startsWith "timestamp" ||
    name.startsWith "date" || name.startsWith "created" || name.startsWith "updated" ||
    name.startsWith "modified" || name.endsWith "_time" || name.endsWith "_date" ||
    name.endsWith "_ts" || name.startsWith "start" || name.startsWith "end" ||
    name.startsWith "event_time" || name.startsWith "log_time" ||
    name.startsWith "occur" || jsIncludes name "@timestamp" ||
    name = "when" || name = "at"
  let valueMatches := (sampleValues.take 3).any fun value =>
    if jsTruthy value = false then false
    else
      let str := jsToString value
      if isDigits10Frac str || isDigitsN 13 str then true
      else if isIsoPre str then true
      else match dfs str with
        | none => false
        | some ms => decide (1990 < yearOf ms)
  nameMatches || valueMatches

/-- Up to 10 sample values for a column: resolve the key on the first 10
records and drop the `undefined` results. -/
def sampleValuesFor (logs : List JVal) (key : String) : List JVal :=
  ((logs.take 10).map fun log => getNestedValue log key).filterMap id

structure SchemaInfo where
  columns : List String
  timestampColumns : List String
deriving DecidableEq

/-- `analyzeLogStructure(logs)` (src/App.js lines 198-213). -/
def analyzeLogStructure (dfs : String → Option Int) (yearOf : Int → Int)
    (logs : List JVal) : SchemaInfo :=
  if logs.length = 0 then ⟨[], []⟩
  else
    let allKeys := extractAllKeys logs
    ⟨allKeys,
     allKeys.filter fun key => isTimestampColumn dfs yearOf key (sampleValuesFor logs key)⟩

/-! ## Claim C2: dual-mode path resolution -/

/-- C2 (corrected). `getNestedValue` first attempts the whole path as a
literal key (on a truthy receiver) and returns that value exactly when it
is defined; if and only if the literal lookup is undefined it splits the
path on `'.'` and traverses with `walkSegs`, which short-circuits to
undefined as soon as the current value is falsy or lacks the segment.
The traversal steps are JavaScript property access, so — against the
claim's parenthetical — they do index into arrays (and strings) by
numeric segments, as the last two conjuncts exhibit. -/
theorem getNestedValue_spec :
    (∀ (obj : JVal) (path : String) (v : JVal),
      jsTruthy obj = true → jsGet obj path = some v →
      getNestedValue obj path = some v) ∧
    (∀ (obj : JVal) (path : String),
      jsGet obj path = none →
      getNestedValue obj path = walkSegs obj (splitDots path)) ∧
    (∀ (obj : JVal) (path : String),
      getNestedValue obj path =
        if jsTruthy obj ∧ (jsGet obj path).isSome then jsGet obj path
        else walkSegs obj (splitDots path)) ∧
    getNestedValue (.obj [("a", .arr [.str "x", .str "y"])]) "a.1" = some (.str "y") ∧
    getNestedValue (.obj [("a", .str "hello")]) "a.length" = some (.num 5) := by
  refine ⟨?_, ?_, ?_, rfl, rfl⟩
  · intro obj path v ht hg
    unfold getNestedValue
    simp [ht, hg]
  · intro obj path hg
    unfold getNestedValue
    simp [hg, foldl_nestedStep_eq_walkSegs]
  · intro obj path
    unfold getNestedValue
    by_cases h : jsTruthy obj ∧ (jsGet obj path).isSome
    · simp [h]
    · simp [h, foldl_nestedStep_eq_walkSegs]

/-- C2 counterexample: the nested traversal of `getNestedValue` reaches an
array at segment `"a"` and then indexes into it with the numeric segment
`"0"`, returning the element — the claim's "never indexes into scalars or
arrays" would require `undefined` here. -/
theorem getNestedValue_array_cex :
    getNestedValue (.obj [("a", .arr [.str "x"])]) "a" = some (.arr [.str "x"]) ∧
    getNestedValue (.obj [("a", .arr [.str "x"])]) "a.0" = some (.str "x") :=
  ⟨rfl, rfl⟩

/-! ## Claim C7: pagination -/

theorem ceil_div_eq_add_pred_div (n s : Nat) (hs : 0 < s) :
    Nat.ceil ((n : ℚ) / (s : ℚ)) = (n + s - 1) / s := by
  have hsq : (0 : ℚ) < (s : ℚ) := by exact_mod_cast hs
  rcases Nat.eq_zero_or_pos n with h0 | hn
  · subst h0
    simp only [Nat.cast_zero, zero_div, Nat.ceil_zero]
    rw [eq_comm, Nat.div_eq_of_lt] <;> omega
  · have hmod := Nat.div_add_mod (n + s - 1) s
    have hr : (n + s - 1) % s < s := Nat.mod_lt _ hs
    set N := (n + s - 1) / s with hN
    have hN1 : 1 ≤ N := by
      rw [hN, Nat.le_div_iff_mul_le hs]
      omega
    have hsub : (N - 1) * s = s * N - s := by
      rw [Nat.sub_mul, Nat.one_mul, Nat.mul_comm]
    have hub : n ≤ s * N := by omega
    have hlb : (N - 1) * s < n := by
      rw [hsub]; omega
    rw [Nat.ceil_eq_iff (by omega)]
    constructor
    · rw [lt_div_iff hsq, ← Nat.cast_mul, Nat.cast_lt]
      exact hlb
    · rw [div_le_iff hsq, ← Nat.cast_mul, Nat.cast_le, Nat.mul_comm]
      exact hub

/-- C7 (confirmed). For `pageNumber ≥ 1` and `pageSize > 0`, pagination
returns `ceil(length / pageSize)` total pages (`0` on the empty list), the
items at indices `[(page-1)*size, page*size)` clamped to the list, and an
empty slice — never an error — when the page is beyond the total. -/
theorem paginate_spec (l : List JVal) (page size : Nat)
    (hp : 1 ≤ page) (hs : 0 < size) :
    (paginate l page size).2 = (l.length + size - 1) / size ∧
    (l.length = 0 → (paginate l page size).2 = 0) ∧
    (∀ j : Nat, (paginate l page size).1.get? j =
        if j < size then l.get? ((page - 1) * size + j) else none) ∧
    ((paginate l page size).2 < page → (paginate l page size).1 = []) := by
  have htot : (paginate l page size).2 = (l.length + size - 1) / size :=
    ceil_div_eq_add_pred_div l.length size hs
  refine ⟨htot, ?_, ?_, ?_⟩
  · intro h0
    rw [htot, h0]
    exact Nat.div_eq_of_lt (by omega)
  · intro j
    show (((l.drop ((page - 1) * size)).take size).get? j) = _
    rw [List.get?_take_eq_if, List.get?_drop]
  · intro hlt
    rw [htot] at hlt
    show ((l.drop ((page - 1) * size)).take size) = []
    have hmod := Nat.div_add_mod (l.length + size - 1) size
    have hr : (l.length + size - 1) % size < size := Nat.mod_lt _ hs
    have hlen : l.length ≤ size * ((l.length + size - 1) / size) := by omega
    have hle2 : size * ((l.length + size - 1) / size) ≤ size * (page - 1) :=
      Nat.mul_le_mul_left _ (by omega)
    have hfin : l.length ≤ (page - 1) * size := by
      calc l.length ≤ size * ((l.length + size - 1) / size) := hlen
        _ ≤ size * (page - 1) := hle2
        _ = (page - 1) * size := Nat.mul_comm _ _
    rw [List.drop_eq_nil_of_le hfin]
    exact List.take_nil

/-- C7 witness: a three-element list, page 2 of size 2 — the single item
of the second page is the element at index 2. -/
theorem paginate_spec_witness :
    (paginate [JVal.null, JVal.null, JVal.str "x"] 2 2).1.get? 0 =
      [JVal.null, JVal.null, JVal.str "x"].get? 2 := by
  have h := (paginate_spec [JVal.null, JVal.null, JVal.str "x"] 2 2
      (by omega) (by omega)).2.2.1 0
  simpa using h

/-! ## Claim C8: schema invariants -/

/-- C8 (confirmed). `analyzeLogStructure` always returns timestamp
columns drawn from the column set, and maps the empty collection to
`{columns: [], timestampColumns: []}` without error, for every behaviour
of the host date parser and `getFullYear`. -/
theorem analyzeLogStructure_spec (dfs : String → Option Int) (yearOf : Int → Int)
    (logs : List JVal) :
    (analyzeLogStructure dfs yearOf logs).timestampColumns ⊆
      (analyzeLogStructure dfs yearOf logs).columns ∧
    analyzeLogStructure dfs yearOf [] = ⟨[], []⟩ := by
  constructor
  · unfold analyzeLogStructure
    by_cases h : logs.length = 0
    · simp [h]
    · simp only [h, if_false]
      intro a ha
      exact (List.mem_filter.mp ha).1
  · rfl

/-! ## Claim C9: falsy timestamps -/

/-- C9 (confirmed). `parseTimestamp` returns `null` for every falsy
input — `undefined`, `null`, the empty string, the number `0` and the
boolean `false` — so the value denoting the Unix epoch instant 0 can
never be parsed. -/
theorem parseTimestamp_falsy (dfs : String → Option Int) (v : Option JVal)
    (h : optTruthy v = false) :
    parseTimestamp dfs v = .nullR ∧
    parseTimestamp dfs (some (.num 0)) = .nullR ∧
    parseTimestamp dfs (some (.bool false)) = .nullR ∧
    parseTimestamp dfs none = .nullR ∧
    parseTimestamp dfs (some .null) = .nullR ∧
    parseTimestamp dfs (some (.str "")) = .nullR := by
  refine ⟨?_, ?_, rfl, rfl, rfl, ?_⟩
  · unfold parseTimestamp
    rw [h]
    rfl
  · unfold parseTimestamp
    norm_num [optTruthy, jsTruthy]
  · unfold parseTimestamp
    norm_num [optTruthy, jsTruthy]

/-- C9 witness: the number `0` (the Unix epoch) parses to `null`. -/
theorem parseTimestamp_falsy_witness :
    parseTimestamp (fun _ => none) (some (.num 0)) = .nullR :=
  (parseTimestamp_falsy (fun _ => none) (some (.num 0))
    (by norm_num [optTruthy, jsTruthy])).1

/-! ## Claim C4: filtering -/

/-- The record-keeping test exactly as claim C4 words it: the lowercased
string form of the resolved value, with the empty string only for an
`undefined` resolution (kept for comparison with the code's behaviour,
which blanks every falsy value). -/
def claimFilterKeep (filters : List (String × String)) (log : JVal) : Bool :=
  filters.all fun kp =>
    let filterValue := jsToLower kp.2
    if filterValue = "" then true
    else
      let sv := match getNestedValue log kp.1 with
        | some v => jsToLower (jsToString v)
        | none => ""
      jsIncludes sv filterValue

/-- C4 counterexample: the record `{"k": 0}` against the filter
`{"k": "0"}`.  The code blanks the falsy resolved value `0` before the
substring test and drops the record; the claim's rule (empty string only
for `undefined`) keeps it, since `"0"` contains `"0"`. -/
theorem applyFilters_cex :
    applyFilters [("k", "0")] [.obj [("k", .num 0)]] = [] ∧
    claimFilterKeep [("k", "0")] (.obj [("k", .num 0)]) = true := by
  constructor
  · with_unfolding_all rfl
  · with_unfolding_all decide

/-- C4 (corrected as amended). A record is kept iff, for every filter
entry with a non-empty (lowercased) pattern, the lowercased string form
of the resolved value — the empty string when the resolved value is falsy
(undefined, null, false, 0, or the empty string), not only when it is
undefined — contains the lowercased pattern as a substring; empty
patterns impose no constraint and the constraints are conjoined. -/
theorem applyFilters_mem (filters : List (String × String)) (logs : List JVal)
    (log : JVal) :
    log ∈ applyFilters filters logs ↔
      log ∈ logs ∧
        ∀ k pat, (k, pat) ∈ filters → jsToLower pat ≠ "" →
          jsIncludes (filterCellString log k) (jsToLower pat) = true := by
  unfold applyFilters
  rw [List.mem_filter]
  refine and_congr_right fun _ => ?_
  rw [List.all_eq_true]
  constructor
  · intro h k pat hmem hne
    have hk := h (k, pat) hmem
    simpa [hne] using hk
  · rintro h ⟨k, pat⟩ hmem
    by_cases he : jsToLower pat = ""
    · simp [he]
    · simpa [he] using h k pat hmem he

/-! ## Claim C3: the sort comparator -/

/-- The effective cell value the comparator sees:
`getNestedValue(rec, key) || ''`. -/
def effValue (rec : JVal) (key : String) : JVal :=
  jsOr (getNestedValue rec key) (.str "")

/-- The string comparison arm of the comparator, as a function of the
direction and the two strings. -/
def stringCmpJS (dir : SortDir) (sa sb : String) : JNum :=
  if sa < sb then .fin (match dir with | .ascending => -1 | .descending => 1)
  else if sb < sa then .fin (match dir with | .ascending => 1 | .descending => -1)
  else .fin 0

/-- The comparison rule exactly as claim C3 words it: numeric when both
sides coerce to FINITE numbers, otherwise lexicographic string
comparison; a missing value is treated as the empty string. -/
def claimCompare (key : String) (dir : SortDir) (a b : JVal) : ℤ :=
  let av := match getNestedValue a key with | some v => v | none => .str ""
  let bv := match getNestedValue b key with | some v => v | none => .str ""
  match jsToNumber av, jsToNumber bv with
  | .fin qa, .fin qb =>
    (match dir with
     | .ascending => if qa < qb then -1 else if qb < qa then 1 else 0
     | .descending => if qa < qb then 1 else if qb < qa then -1 else 0)
  | _, _ =>
    jnumSign (stringCmpJS dir (jsToString av) (jsToString bv))

/-- C3 counterexample: sort-key values `"-Infinity"` and `"-5"`.
`Number("-Infinity")` is not finite, so the claim prescribes string
comparison (`"-5" < "-Infinity"`, sign `+1` ascending); the code only
tests for NaN and compares numerically (`-Infinity < -5`, sign `-1`). -/
theorem jsCompare_infinity_cex :
    cmpSign "k" .ascending (.obj [("k", .str "-Infinity")]) (.obj [("k", .str "-5")]) = -1 ∧
    claimCompare "k" .ascending (.obj [("k", .str "-Infinity")]) (.obj [("k", .str "-5")]) = 1 ∧
    jsToNumber (.str "-Infinity") = .negInf := by
  refine ⟨by decide, by with_unfolding_all decide, by decide⟩

theorem jnumSub_swap_sign (x y : JNum)
    (hx : jnumIsNaN x = false) (hy : jnumIsNaN y = false) :
    jnumSign (jnumSub y x) = - jnumSign (jnumSub x y) := by
  cases x with
  | nan => simp [jnumIsNaN] at hx
  | posInf => cases y <;> simp_all [jnumIsNaN, jnumSub, jnumSign]
  | negInf => cases y <;> simp_all [jnumIsNaN, jnumSub, jnumSign]
  | fin qa =>
    cases y with
    | nan => simp [jnumIsNaN] at hy
    | posInf => simp [jnumSub, jnumSign]
    | negInf => simp [jnumSub, jnumSign]
    | fin qb =>
      simp only [jnumSub, jnumSign, sub_neg, sub_pos]
      rcases lt_trichotomy qa qb with h | h | h
      · simp [h, asymm h]
      · simp [h]
      · simp [h, asymm h]

theorem jnumSign_fin_neg_one : jnumSign (.fin (-1)) = -1 := by norm_num [jnumSign]

theorem jnumSign_fin_one : jnumSign (.fin 1) = 1 := by norm_num [jnumSign]

theorem jnumSign_fin_zero : jnumSign (.fin 0) = 0 := by norm_num [jnumSign]

theorem stringCmpJS_swap_sign (sa sb : String) :
    jnumSign (stringCmpJS .descending sa sb) = - jnumSign (stringCmpJS .ascending sa sb) := by
  unfold stringCmpJS
  rcases lt_trichotomy sa sb with h | h | h
  · simp [h, asymm h, jnumSign_fin_neg_one, jnumSign_fin_one]
  · simp [h, lt_irrefl, jnumSign_fin_zero]
  · simp [h, asymm h, jnumSign_fin_neg_one, jnumSign_fin_one]

/-- C3 (corrected as amended).  The comparator resolves both sort-key
values and replaces a missing (more generally, falsy) value by the empty
string; it compares numerically whenever NEITHER side's coercion is NaN
(so `±Infinity` coercions still compare numerically — the claim's
"finite" is the corrected word), and by ordinary lexicographic string
comparison otherwise; `descending` yields exactly the opposite sign of
`ascending`; and with no sort key the records keep their input order. -/
theorem jsCompare_spec :
    (∀ key a b dir,
      jnumIsNaN (jsToNumber (effValue a key)) = false →
      jnumIsNaN (jsToNumber (effValue b key)) = false →
      jsCompare key dir a b =
        (match dir with
         | .ascending => jnumSub (jsToNumber (effValue a key)) (jsToNumber (effValue b key))
         | .descending => jnumSub (jsToNumber (effValue b key)) (jsToNumber (effValue a key)))) ∧
    (∀ key a b dir,
      (jnumIsNaN (jsToNumber (effValue a key)) = true ∨
       jnumIsNaN (jsToNumber (effValue b key)) = true) →
      jsCompare key dir a b =
        stringCmpJS dir (jsToString (effValue a key)) (jsToString (effValue b key))) ∧
    (∀ key a b dir, getNestedValue a key = none →
      jsCompare key dir a b = compareVals dir (.str "") (effValue b key)) ∧
    (∀ key a b, cmpSign key .descending a b = - cmpSign key .ascending a b) ∧
    (∀ dir logs, applySort none dir logs = logs) := by
  refine ⟨?_, ?_, ?_, ?_, fun _ _ => rfl⟩
  · intro key a b dir ha hb
    show compareVals dir (effValue a key) (effValue b key) = _
    unfold compareVals
    simp only [ha, hb, Bool.not_false, Bool.and_self, if_true]
  · intro key a b dir hor
    show compareVals dir (effValue a key) (effValue b key) = _
    unfold compareVals stringCmpJS
    rcases hor with h | h <;> simp [h]
  · intro key a b dir hnone
    show compareVals dir (effValue a key) (effValue b key) = _
    unfold effValue
    rw [hnone]
    rfl
  · intro key a b
    show jnumSign (compareVals .descending (effValue a key) (effValue b key)) =
      - jnumSign (compareVals .ascending (effValue a key) (effValue b key))
    unfold compareVals
    by_cases ha : jnumIsNaN (jsToNumber (effValue a key)) = false
    · by_cases hb : jnumIsNaN (jsToNumber (effValue b key)) = false
      · simp only [ha, hb, Bool.not_false, Bool.and_self, if_true]
        exact jnumSub_swap_sign _ _ ha hb
      · simp only [Bool.not_eq_false] at hb
        simp only [ha, hb, Bool.not_false, Bool.not_true, Bool.and_false, Bool.false_and,
          if_false]
        exact stringCmpJS_swap_sign _ _
    · simp only [Bool.not_eq_false] at ha
      simp only [ha, Bool.not_true, Bool.false_and, if_false]
      exact stringCmpJS_swap_sign _ _

/-! ## Claim C10: falsy sort values compare as 0 -/

/-- Whether a resolved value is falsy (or missing altogether). -/
def effFalsy : Option JVal → Bool
  | none => true
  | some v => !jsTruthy v

/-- C10 (confirmed). Every falsy resolved sort value — missing key, null,
`false`, `0`, or the empty string — is first replaced by `''`, whose
numeric coercion is `0`; hence whenever the other side's effective value
coerces to a number `q`, the falsy record participates in numeric
comparison as the number `0` rather than being ordered as a string. -/
theorem jsCompare_falsy_zero (key : String) (a b : JVal) (q : ℚ)
    (hfalsy : effFalsy (getNestedValue a key) = true)
    (hb : jsToNumber (effValue b key) = .fin q) :
    jsToNumber (JVal.str "") = .fin 0 ∧
    effValue a key = .str "" ∧
    jsCompare key .ascending a b = .fin (0 - q) ∧
    jsCompare key .descending a b = .fin (q - 0) := by
  have heff : effValue a key = .str "" := by
    unfold effValue jsOr
    cases hres : getNestedValue a key with
    | none => rfl
    | some v =>
      rw [hres] at hfalsy
      simp only [effFalsy, Bool.not_eq_true'] at hfalsy
      show (if jsTruthy v = true then v else JVal.str "") = JVal.str ""
      rw [hfalsy]
      simp
  have hzero : jsToNumber (JVal.str "") = .fin 0 := rfl
  refine ⟨hzero, heff, ?_, ?_⟩
  · show compareVals .ascending (effValue a key) (effValue b key) = _
    unfold compareVals
    rw [heff, hzero, hb]
    rfl
  · show compareVals .descending (effValue a key) (effValue b key) = _
    unfold compareVals
    rw [heff, hzero, hb]
    rfl

/-- C10 witness: a record missing the key `"k"` compares against the
value `5` as the number `0`. -/
theorem jsCompare_falsy_zero_witness :
    jsCompare "k" .ascending (.obj []) (.obj [("k", .num 5)]) = .fin (0 - 5) :=
  (jsCompare_falsy_zero "k" (.obj []) (.obj [("k", .num 5)]) 5
    (by decide) (by with_unfolding_all decide)).2.2.1

/-! ## Claim C5: stability of the sort -/

theorem mem_insertLE {α : Type} (le : α → α → Bool) (x y : α) (l : List α) :
    y ∈ insertLE le x l ↔ y = x ∨ y ∈ l := by
  induction l with
  | nil => simp [insertLE]
  | cons z zs ih =>
    unfold insertLE
    by_cases h : le x z
    · simp [h, List.mem_cons]
    · have h' : le x z = false := by simpa using h
      simp only [h', Bool.false_eq_true, if_false, List.mem_cons, ih]
      tauto

theorem mem_sortStable {α : Type} (le : α → α → Bool) (y : α) (l : List α) :
    y ∈ sortStable le l ↔ y ∈ l := by
  induction l with
  | nil => simp [sortStable]
  | cons x xs ih =>
    unfold sortStable
    rw [mem_insertLE, ih, List.mem_cons]

theorem filter_insertLE_pos {α : Type} (le : α → α → Bool) (p : α → Bool) (x : α)
    (l : List α) (hx : p x = true)
    (hle : ∀ y ∈ l, p y = true → le x y = true) :
    (insertLE le x l).filter p = x :: l.filter p := by
  induction l with
  | nil => simp [insertLE, hx]
  | cons z zs ih =>
    unfold insertLE
    by_cases h : le x z
    · simp [h, List.filter_cons, hx]
    · rw [if_neg h, List.filter_cons]
      by_cases hz : p z
      · exact absurd (hle z (by simp) hz) h
      · simp only [hz, if_false]
        rw [ih (fun y hy hp => hle y (List.mem_cons_of_mem z hy) hp),
          List.filter_cons]
        simp [hz]

theorem filter_insertLE_neg {α : Type} (le : α → α → Bool) (p : α → Bool) (x : α)
    (l : List α) (hx : p x = false) :
    (insertLE le x l).filter p = l.filter p := by
  induction l with
  | nil => simp [insertLE, hx]
  | cons z zs ih =>
    unfold insertLE
    by_cases h : le x z
    · simp [h, List.filter_cons, hx]
    · rw [if_neg h, List.filter_cons, List.filter_cons, ih]

theorem sortStable_filter {α : Type} (le : α → α → Bool) (p : α → Bool)
    (l : List α)
    (h : ∀ a ∈ l, ∀ b ∈ l, p a = true → p b = true → le a b = true) :
    (sortStable le l).filter p = l.filter p := by
  induction l with
  | nil => rfl
  | cons x xs ih =>
    unfold sortStable
    have hrest : ∀ a ∈ xs, ∀ b ∈ xs, p a = true → p b = true → le a b = true :=
      fun a ha b hb => h a (List.mem_cons_of_mem x ha) b (List.mem_cons_of_mem x hb)
    by_cases hx : p x
    · rw [filter_insertLE_pos le p x _ hx ?hle, ih hrest, List.filter_cons]
      · simp [hx]
      case hle =>
        intro y hy hp
        have hy' : y ∈ xs := (mem_sortStable le y _).mp hy
        exact h x (List.mem_cons_self x xs) y (List.mem_cons_of_mem x hy') hx hp
    · rw [filter_insertLE_neg le p x _ (by simpa using hx), ih hrest, List.filter_cons]
      simp [hx]

/-- C5 (confirmed). The sort is stable: for every collection, active sort
key and direction, any class of records whose sort-key values all compare
equal (comparator sign 0) appears in the sorted output in exactly its
input order — its subsequence is unchanged. -/
theorem applySort_stable (logs : List JVal) (key : String) (dir : SortDir)
    (p : JVal → Bool)
    (hties : ∀ a ∈ logs, ∀ b ∈ logs, p a = true → p b = true →
      cmpSign key dir a b = 0) :
    (applySort (some key) dir logs).filter p = logs.filter p := by
  apply sortStable_filter
  intro a ha b hb hpa hpb
  simp [hties a ha b hb hpa hpb]

/-- C5 witness: two records tied on `"k"` keep their input order. -/
theorem applySort_stable_witness :
    (applySort (some "k") .ascending
        [JVal.obj [("k", .str "x"), ("u", .str "1")],
         JVal.obj [("k", .str "x"), ("u", .str "2")]]).filter (fun _ => true) =
      [JVal.obj [("k", .str "x"), ("u", .str "1")],
       JVal.obj [("k", .str "x"), ("u", .str "2")]].filter (fun _ => true) :=
  applySort_stable _ "k" .ascending _ (by with_unfolding_all decide)

/-! ## Claim C6: seconds vs milliseconds -/

theorem charDigit_le_nine (c : Char) (h : c.isDigit = true) : charDigit c ≤ 9 := by
  simp [Char.isDigit] at h
  obtain ⟨h1, h2⟩ := h
  have h3 : c.val.toNat ≤ (57 : UInt32).toNat := h2
  have h4 : (57 : UInt32).toNat = 57 := rfl
  unfold charDigit Char.toNat
  omega

theorem foldl_digits_lt (cs : List Char) (acc : Nat)
    (h : cs.all Char.isDigit = true) :
    cs.foldl (fun a c => a * 10 + charDigit c) acc < (acc + 1) * 10 ^ cs.length := by
  induction cs generalizing acc with
  | nil => simpa using Nat.lt_succ_self acc
  | cons c cs ih =>
    simp only [List.all_cons, Bool.and_eq_true] at h
    have hc := charDigit_le_nine c h.1
    have hstep := ih (acc * 10 + charDigit c) h.2
    calc cs.foldl (fun a c => a * 10 + charDigit c) (acc * 10 + charDigit c)
        < (acc * 10 + charDigit c + 1) * 10 ^ cs.length := hstep
      _ ≤ ((acc + 1) * 10) * 10 ^ cs.length :=
          Nat.mul_le_mul_right _ (by omega)
      _ = (acc + 1) * 10 ^ (c :: cs).length := by
          rw [List.length_cons, pow_succ]
          ring

theorem parseDigits_lt (cs : List Char) (h : cs.all Char.isDigit = true) :
    parseDigits cs < 10 ^ cs.length := by
  simpa [parseDigits] using foldl_digits_lt cs 0 h

theorem str_ne_empty_of_len (s : String) (n : Nat) (hn : n ≠ 0)
    (h : s.data.length = n) : s ≠ "" := by
  intro he
  subst he
  simp at h
  omega

/-- `mkDate` on an integer below the clip bound is that integer. -/
theorem mkDate_intCast (k : ℤ) (hk : k.natAbs ≤ 8640000000000000) :
    mkDate ((k : ℚ)) = some k := by
  unfold mkDate ratTrunc
  by_cases h0 : (0 : ℚ) ≤ (k : ℚ)
  · rw [if_pos h0, Int.floor_intCast, if_pos hk]
  · rw [if_neg h0, ← Int.cast_neg, Int.floor_intCast]
    simp [hk]

theorem parseTimestamp_str_digits (dfs : String → Option Int) (s : String)
    (n : Nat) (hn : n = 10 ∨ n = 13)
    (hlen : s.data.length = n) (hdig : s.data.all Char.isDigit = true) :
    parseTimestamp dfs (some (.str s)) =
      .dateR (some ((parseDigits s.data : ℤ) *
        (if n = 10 then 1000 else 1))) := by
  have hne : s ≠ "" := str_ne_empty_of_len s n (by omega) hlen
  have htr : optTruthy (some (.str s)) = true := by
    simp [optTruthy, jsTruthy, hne]
  have hlt : parseDigits s.data < 10 ^ n := by
    have := parseDigits_lt s.data hdig
    rwa [hlen] at this
  have hjs : jsToString (JVal.str s) = s := rfl
  unfold parseTimestamp
  rw [if_neg (by simp [htr])]
  rcases hn with h10 | h13
  · subst h10
    have hd : isDigitsN 10 s = true := by
      simp [isDigitsN, hlen, hdig]
    simp only [Option.getD, hjs, hd, if_true]
    show PTResult.dateR (mkDate ((parseDigits s.data : ℚ) * 1000)) = _
    have hlt' : parseDigits s.data < 10000000000 := by
      norm_num at hlt
      exact hlt
    have hcast : ((parseDigits s.data : ℚ) * 1000) =
        (((parseDigits s.data : ℤ) * 1000 : ℤ) : ℚ) := by
      push_cast
      ring
    rw [hcast, mkDate_intCast _ (by omega)]
  · subst h13
    have hd10 : isDigitsN 10 s = false := by
      simp [isDigitsN, hlen]
    have hd13 : isDigitsN 13 s = true := by
      simp [isDigitsN, hlen, hdig]
    simp only [Option.getD, hjs, hd10, hd13, Bool.false_eq_true, if_false, if_true]
    show PTResult.dateR (mkDate ((parseDigits s.data : ℚ))) = _
    have hlt' : parseDigits s.data < 10000000000000 := by
      norm_num at hlt
      exact hlt
    have hcast : ((parseDigits s.data : ℚ)) = (((parseDigits s.data : ℤ) : ℤ) : ℚ) := by
      push_cast
      ring
    rw [hcast, mkDate_intCast _ (by omega)]
    simp

/-- C6 (corrected as amended).  Digit strings behave as the claim states:
exactly 10 digits are Unix seconds, exactly 13 digits Unix milliseconds,
and the two quoted instants denote the same moment.  Numeric values,
however, are split by the strict test `timestamp > 1e12`: integers up to
and including `10^12` (all 10-digit numbers, but also the smallest
13-digit number `1000000000000` itself) are seconds, and only numbers
strictly above `10^12` are milliseconds. -/
theorem parseTimestamp_formats (dfs : String → Option Int) :
    (∀ q : ℚ, q.den = 1 → 1000000000 ≤ q → q < 10000000000 →
      parseTimestamp dfs (some (.num q)) = .dateR (some (q.num * 1000))) ∧
    (∀ q : ℚ, q.den = 1 → 1000000000000 < q → q < 10000000000000 →
      parseTimestamp dfs (some (.num q)) = .dateR (some q.num)) ∧
    (∀ s : String, isDigitsN 10 s = true →
      parseTimestamp dfs (some (.str s)) = .dateR (some ((parseDigits s.data : ℤ) * 1000))) ∧
    (∀ s : String, isDigitsN 13 s = true →
      parseTimestamp dfs (some (.str s)) = .dateR (some (parseDigits s.data : ℤ))) ∧
    parseTimestamp dfs (some (.str "1700000000")) = .dateR (some 1700000000000) ∧
    parseTimestamp dfs (some (.str "1700000000000")) = .dateR (some 1700000000000) := by
  have hstr10 : ∀ s : String, isDigitsN 10 s = true →
      parseTimestamp dfs (some (.str s)) =
        .dateR (some ((parseDigits s.data : ℤ) * 1000)) := by
    intro s hs
    unfold isDigitsN at hs
    simp only [Bool.and_eq_true, decide_eq_true_eq] at hs
    have := parseTimestamp_str_digits dfs s 10 (Or.inl rfl) hs.1 hs.2
    simpa using this
  have hstr13 : ∀ s : String, isDigitsN 13 s = true →
      parseTimestamp dfs (some (.str s)) =
        .dateR (some (parseDigits s.data : ℤ)) := by
    intro s hs
    unfold isDigitsN at hs
    simp only [Bool.and_eq_true, decide_eq_true_eq] at hs
    have := parseTimestamp_str_digits dfs s 13 (Or.inr rfl) hs.1 hs.2
    simpa using this
  refine ⟨?_, ?_, hstr10, hstr13, ?_, ?_⟩
  · intro q hden hlo hhi
    have hq : (q.num : ℚ) = q := (Rat.den_eq_one_iff q).mp hden
    have hnlo : (1000000000 : ℤ) ≤ q.num := by
      rw [← hq] at hlo
      exact_mod_cast hlo
    have hnhi : q.num < 10000000000 := by
      rw [← hq] at hhi
      exact_mod_cast hhi
    have htr : optTruthy (some (.num q)) = true := by
      simp only [optTruthy, jsTruthy, decide_eq_true_eq]
      intro h0
      rw [h0] at hlo
      norm_num at hlo
    unfold parseTimestamp
    rw [if_neg (by simp [htr])]
    show PTResult.dateR (mkDate (if 1000000000000 < q then q else q * 1000)) = _
    have hngt : ¬ (1000000000000 : ℚ) < q := by
      intro hcon
      rw [← hq] at hcon
      have : (1000000000000 : ℤ) < q.num := by exact_mod_cast hcon
      omega
    rw [if_neg hngt]
    have hcast : q * 1000 = ((q.num * 1000 : ℤ) : ℚ) := by
      push_cast [hq]
      ring
    rw [hcast, mkDate_intCast _ (by omega)]
  · intro q hden hlo hhi
    have hq : (q.num : ℚ) = q := (Rat.den_eq_one_iff q).mp hden
    have hnlo : (1000000000000 : ℤ) < q.num := by
      rw [← hq] at hlo
      exact_mod_cast hlo
    have hnhi : q.num < 10000000000000 := by
      rw [← hq] at hhi
      exact_mod_cast hhi
    have htr : optTruthy (some (.num q)) = true := by
      simp only [optTruthy, jsTruthy, decide_eq_true_eq]
      intro h0
      rw [h0] at hlo
      norm_num at hlo
    unfold parseTimestamp
    rw [if_neg (by simp [htr])]
    show PTResult.dateR (mkDate (if 1000000000000 < q then q else q * 1000)) = _
    have hgt : (1000000000000 : ℚ) < q := by
      rw [← hq]
      exact_mod_cast hnlo
    rw [if_pos hgt]
    nth_rewrite 1 [← hq]
    rw [mkDate_intCast _ (by omega)]
  · rw [hstr10 "1700000000" (by decide)]
    decide
  · rw [hstr13 "1700000000000" (by decide)]
    decide

/-- C6 counterexample: the 13-digit NUMBER `1000000000000` (= `10^12`) is
not strictly above `1e12`, so the code multiplies it by 1000 and reads it
as Unix seconds — the instant produced is `10^15` ms, not the claimed
`10^12` ms. -/
theorem parseTimestamp_trillion_cex :
    parseTimestamp (fun _ => none) (some (.num 1000000000000)) =
      .dateR (some 1000000000000000) ∧
    (1000000000000000 : ℤ) ≠ 1000000000000 := by
  constructor
  · have htr : optTruthy (some (JVal.num 1000000000000)) = true := by
      simp only [optTruthy, jsTruthy, decide_eq_true_eq]
      norm_num
    unfold parseTimestamp
    rw [if_neg (by simp [htr])]
    show PTResult.dateR (mkDate (if (1000000000000 : ℚ) < (1000000000000 : ℚ) then
        (1000000000000 : ℚ) else (1000000000000 : ℚ) * 1000)) = _
    rw [if_neg (lt_irrefl (1000000000000 : ℚ))]
    have hcast : (1000000000000 : ℚ) * 1000 = ((1000000000000000 : ℤ) : ℚ) := by
      norm_num
    rw [hcast, mkDate_intCast _ (by norm_num)]
  · decide

/-! ## Claim C1: schema paths resolve -/

/-- Duplicate-freedom of an object's key list (JavaScript objects cannot
carry the same key twice; the list model must say so explicitly). -/
def nodupKeys : List String → Bool
  | [] => true
  | k :: ks => !(ks.contains k) && nodupKeys ks

mutual

/-- A record shape on which dotted-path resolution is unambiguous: every
mapping key, at every nesting level, is non-empty and contains no literal
`'.'`, and keys are unique within each mapping. -/
def cleanV : JVal → Bool
  | .obj fs => nodupKeys (fs.map Prod.fst) && cleanFields fs
  | _ => true

def cleanFields : List (String × JVal) → Bool
  | [] => true
  | (k, v) :: rest =>
    !hasDot k && decide (k ≠ "") && cleanV v && cleanFields rest

end

theorem splitOnChar_ne_nil (c : Char) (xs : List Char) : splitOnChar c xs ≠ [] := by
  induction xs with
  | nil => simp [splitOnChar]
  | cons x xs ih =>
    unfold splitOnChar
    cases h : splitOnChar c xs with
    | nil => simp
    | cons hd tl =>
      by_cases hx : x = c <;> simp [hx]

theorem splitOnChar_append (c : Char) (xs ys : List Char) :
    splitOnChar c (xs ++ c :: ys) = splitOnChar c xs ++ splitOnChar c ys := by
  induction xs with
  | nil =>
    show (match splitOnChar c ys with
      | [] => [[]]
      | hh :: tt => if c = c then [] :: hh :: tt else (c :: hh) :: tt) =
      [[]] ++ splitOnChar c ys
    cases h : splitOnChar c ys with
    | nil => exact absurd h (splitOnChar_ne_nil c ys)
    | cons hd tl => simp
  | cons x xs ih =>
    cases h : splitOnChar c xs with
    | nil => exact absurd h (splitOnChar_ne_nil c xs)
    | cons hd tl =>
      show (match splitOnChar c (xs ++ c :: ys) with
        | [] => [[]]
        | hh :: tt => if x = c then [] :: hh :: tt else (x :: hh) :: tt) =
        (match splitOnChar c xs with
        | [] => [[]]
        | hh :: tt => if x = c then [] :: hh :: tt else (x :: hh) :: tt) ++
          splitOnChar c ys
      rw [ih, h]
      by_cases hx : x = c <;> simp [hx]

theorem splitOnChar_of_not_mem (c : Char) (xs : List Char) (h : ¬ c ∈ xs) :
    splitOnChar c xs = [xs] := by
  induction xs with
  | nil => rfl
  | cons x xs ih =>
    simp only [List.mem_cons, not_or] at h
    unfold splitOnChar
    rw [ih h.2]
    have hx : ¬ x = c := fun he => h.1 he.symm
    simp [hx]

theorem string_mk_data (s : String) : String.mk s.data = s := by
  cases s
  rfl

theorem data_append_dot (a b : String) :
    (a ++ "." ++ b).data = a.data ++ '.' :: b.data := by
  simp [String.data_append]

theorem splitDots_append_dot (a b : String) :
    splitDots (a ++ "." ++ b) = splitDots a ++ splitDots b := by
  unfold splitDots
  rw [data_append_dot, splitOnChar_append, List.map_append]

theorem splitDots_single (k : String) (h : hasDot k = false) : splitDots k = [k] := by
  unfold hasDot at h
  unfold splitDots
  rw [splitOnChar_of_not_mem _ _ (by simpa using h)]
  simp [string_mk_data]

theorem append_dot_ne_empty (a b : String) : a ++ "." ++ b ≠ "" := by
  intro h
  have hd : (a ++ "." ++ b).data = "".data := by rw [h]
  rw [data_append_dot] at hd
  simp at hd

theorem hasDot_append_dot (a b : String) : hasDot (a ++ "." ++ b) = true := by
  unfold hasDot
  rw [data_append_dot]
  simp

theorem walkSegs_append (v : JVal) (s1 s2 : List String) :
    walkSegs v (s1 ++ s2) =
      match walkSegs v s1 with
      | some w => walkSegs w s2
      | none => none := by
  induction s1 generalizing v with
  | nil => rfl
  | cons k ks ih =>
    by_cases hv : jsTruthy v
    · cases hg : jsGet v k with
      | some w =>
        have hL : walkSegs v ((k :: ks) ++ s2) = walkSegs w (ks ++ s2) := by
          show (if jsTruthy v = true then
              match jsGet v k with
              | some u => walkSegs u (ks ++ s2)
              | none => none
            else none) = walkSegs w (ks ++ s2)
          rw [if_pos hv, hg]
        have hR : walkSegs v (k :: ks) = walkSegs w ks := by
          show (if jsTruthy v = true then
              match jsGet v k with
              | some u => walkSegs u ks
              | none => none
            else none) = walkSegs w ks
          rw [if_pos hv, hg]
        rw [hL, hR, ih w]
      | none =>
        have hL : walkSegs v ((k :: ks) ++ s2) = none := by
          show (if jsTruthy v = true then
              match jsGet v k with
              | some u => walkSegs u (ks ++ s2)
              | none => none
            else none) = none
          rw [if_pos hv, hg]
        have hR : walkSegs v (k :: ks) = none := by
          show (if jsTruthy v = true then
              match jsGet v k with
              | some u => walkSegs u ks
              | none => none
            else none) = none
          rw [if_pos hv, hg]
        rw [hL, hR]
    · have hL : walkSegs v ((k :: ks) ++ s2) = none := by
        show (if jsTruthy v = true then
            match jsGet v k with
            | some u => walkSegs u (ks ++ s2)
            | none => none
          else none) = none
        rw [if_neg hv]
      have hR : walkSegs v (k :: ks) = none := by
        show (if jsTruthy v = true then
            match jsGet v k with
            | some u => walkSegs u ks
            | none => none
          else none) = none
        rw [if_neg hv]
      rw [hL, hR]

theorem walkSegs_obj_single (fs : List (String × JVal)) (k : String) (v : JVal)
    (h : lookupField fs k = some v) :
    walkSegs (.obj fs) [k] = some v := by
  have hg : jsGet (.obj fs) k = some v := by
    show lookupField fs k = some v
    exact h
  show (if jsTruthy (JVal.obj fs) = true then
      match jsGet (JVal.obj fs) k with
      | some u => walkSegs u []
      | none => none
    else none) = some v
  simp only [jsTruthy]
  rw [if_pos trivial, hg]
  rfl

theorem lookupField_of_nodup (fs : List (String × JVal)) (k : String) (v : JVal)
    (hnd : nodupKeys (fs.map Prod.fst) = true) (hmem : (k, v) ∈ fs) :
    lookupField fs k = some v := by
  induction fs with
  | nil => simp at hmem
  | cons hd rest ih =>
    obtain ⟨k1, v1⟩ := hd
    simp only [List.map_cons, nodupKeys, Bool.and_eq_true, Bool.not_eq_true'] at hnd
    rcases List.mem_cons.mp hmem with heq | hrest
    · injection heq with hk hv
      subst hk
      subst hv
      show (if k = k then some v else lookupField rest k) = some v
      rw [if_pos rfl]
    · show (if k1 = k then some v1 else lookupField rest k) = some v
      by_cases hkk : k1 = k
      · exfalso
        subst hkk
        have hmem2 : k1 ∈ rest.map Prod.fst := List.mem_map_of_mem Prod.fst hrest
        have hcontains : (rest.map Prod.fst).contains k1 = true :=
          List.elem_eq_true_of_mem hmem2
        rw [hnd.1] at hcontains
        exact Bool.false_ne_true hcontains
      · rw [if_neg hkk]
        exact ih hnd.2 hrest

theorem lookupField_none_of_clean_keys (fs : List (String × JVal)) (p : String)
    (hkeys : ∀ k v, (k, v) ∈ fs → hasDot k = false)
    (hp : hasDot p = true) :
    lookupField fs p = none := by
  induction fs with
  | nil => rfl
  | cons hd rest ih =>
    obtain ⟨k1, v1⟩ := hd
    unfold lookupField
    have hk1 : hasDot k1 = false := hkeys k1 v1 (List.mem_cons_self _ _)
    rw [if_neg (fun he => by rw [he] at hk1; rw [hk1] at hp; exact Bool.false_ne_true hp)]
    exact ih (fun k v hkv => hkeys k v (List.mem_cons_of_mem _ hkv))

theorem cleanFields_entry (fs : List (String × JVal)) (k : String) (v : JVal)
    (hc : cleanFields fs = true) (hmem : (k, v) ∈ fs) :
    hasDot k = false ∧ k ≠ "" ∧ cleanV v = true := by
  induction fs with
  | nil => simp at hmem
  | cons hd rest ih =>
    obtain ⟨k1, v1⟩ := hd
    unfold cleanFields at hc
    simp only [Bool.and_eq_true, Bool.not_eq_true', decide_eq_true_eq] at hc
    rcases List.mem_cons.mp hmem with heq | hrest
    · injection heq with hk hv
      subst hk
      subst hv
      exact ⟨hc.1.1.1, hc.1.1.2, hc.1.2⟩
    · exact ih hc.2 hrest

theorem collectFs_mem_hasDot (fs : List (String × JVal)) :
    ∀ (pre p : String), p ∈ collectFs pre fs → pre ≠ "" → hasDot p = true := by
  intro pre p hp hpre
  rcases hfs : fs with _ | ⟨⟨k, val⟩, rest⟩
  · rw [hfs] at hp
    simp [collectFs] at hp
  · rw [hfs] at hp
    unfold collectFs at hp
    simp only [List.mem_append] at hp
    rw [if_neg hpre] at hp
    rcases hp with (hc | hs) | ht
    · by_cases hm : meaningfulB val
      · simp only [hm, if_true, List.mem_singleton] at hc
        subst hc
        exact hasDot_append_dot pre k
      · simp [hm] at hc
    · cases val with
      | obj fs2 =>
        have hs2 : p ∈ (if (pre = "" ∧ ¬ hasDot k = true) ∨
            (pre ≠ "" ∧ (splitDots pre).length < 3) then
            collectFs (pre ++ "." ++ k) fs2 else []) := hs
        by_cases hcond : (pre = "" ∧ ¬ hasDot k = true) ∨
            (pre ≠ "" ∧ (splitDots pre).length < 3)
        · rw [if_pos hcond] at hs2
          exact collectFs_mem_hasDot fs2 (pre ++ "." ++ k) p hs2
            (append_dot_ne_empty pre k)
        · rw [if_neg hcond] at hs2
          simp at hs2
      | null => simp at hs
      | bool b => simp at hs
      | num q => simp at hs
      | str s => simp at hs
      | arr l => simp at hs
    · exact collectFs_mem_hasDot rest pre p ht hpre
termination_by sizeOf fs
decreasing_by
  all_goals subst hfs
  all_goals simp
  all_goals omega

theorem collectFs_resolve (fs : List (String × JVal)) :
    ∀ (allFs : List (String × JVal)) (pre : String) (r : JVal) (p : String),
      cleanFields fs = true →
      (∀ k v, (k, v) ∈ fs → lookupField allFs k = some v) →
      walkSegs r (splitDots pre) = some (.obj allFs) →
      pre ≠ "" →
      p ∈ collectFs pre fs →
      ∃ v, walkSegs r (splitDots p) = some v ∧ meaningfulB v = true := by
  intro allFs pre r p hclean hlookup hwalk hpre hp
  rcases hfs : fs with _ | ⟨⟨k, val⟩, rest⟩
  · rw [hfs] at hp
    simp [collectFs] at hp
  · rw [hfs] at hp hclean hlookup
    simp only [cleanFields, Bool.and_eq_true, Bool.not_eq_true',
      decide_eq_true_eq] at hclean
    obtain ⟨⟨⟨hkdot, hkne⟩, hkclean⟩, hrestclean⟩ := hclean
    have hstep : walkSegs r (splitDots (pre ++ "." ++ k)) = some val := by
      rw [splitDots_append_dot, splitDots_single k hkdot, walkSegs_append, hwalk]
      exact walkSegs_obj_single allFs k val
        (hlookup k val (List.mem_cons_self _ _))
    unfold collectFs at hp
    simp only [List.mem_append] at hp
    rw [if_neg hpre] at hp
    rcases hp with (hc | hs) | ht
    · by_cases hm : meaningfulB val
      · simp only [hm, if_true, List.mem_singleton] at hc
        subst hc
        exact ⟨val, hstep, hm⟩
      · simp [hm] at hc
    · cases val with
      | obj fs2 =>
        have hs2 : p ∈ (if (pre = "" ∧ ¬ hasDot k = true) ∨
            (pre ≠ "" ∧ (splitDots pre).length < 3) then
            collectFs (pre ++ "." ++ k) fs2 else []) := hs
        by_cases hcond : (pre = "" ∧ ¬ hasDot k = true) ∨
            (pre ≠ "" ∧ (splitDots pre).length < 3)
        · rw [if_pos hcond] at hs2
          simp only [cleanV, Bool.and_eq_true] at hkclean
          exact collectFs_resolve fs2 fs2 (pre ++ "." ++ k) r p hkclean.2
            (fun k' v' hm' => lookupField_of_nodup fs2 k' v' hkclean.1 hm')
            hstep (append_dot_ne_empty pre k) hs2
        · rw [if_neg hcond] at hs2
          simp at hs2
      | null => simp at hs
      | bool b => simp at hs
      | num q => simp at hs
      | str s => simp at hs
      | arr l => simp at hs
    · exact collectFs_resolve rest allFs pre r p hrestclean
        (fun k' v' hm' => hlookup k' v' (List.mem_cons_of_mem _ hm'))
        hwalk hpre ht
termination_by sizeOf fs
decreasing_by
  all_goals subst hfs
  all_goals simp
  all_goals omega

theorem collectFs_top_resolve (fs : List (String × JVal)) :
    ∀ (allFs : List (String × JVal)) (p : String),
      cleanFields fs = true →
      (∀ k v, (k, v) ∈ fs → lookupField allFs k = some v) →
      (∀ k v, (k, v) ∈ allFs → hasDot k = false) →
      p ∈ collectFs "" fs →
      ∃ v, getNestedValue (.obj allFs) p = some v ∧ meaningfulB v = true := by
  induction fs with
  | nil =>
    intro allFs p _ _ _ hp
    simp [collectFs] at hp
  | cons hd rest ih =>
    obtain ⟨k, val⟩ := hd
    intro allFs p hclean hlookup hkeys hp
    simp only [cleanFields, Bool.and_eq_true, Bool.not_eq_true',
      decide_eq_true_eq] at hclean
    obtain ⟨⟨⟨hkdot, hkne⟩, hkclean⟩, hrestclean⟩ := hclean
    unfold collectFs at hp
    rw [show (if ("" : String) = "" then k else "" ++ "." ++ k) = k from rfl] at hp
    simp only [List.mem_append] at hp
    rcases hp with (hc | hs) | ht
    · by_cases hm : meaningfulB val
      · simp only [hm, if_true, List.mem_singleton] at hc
        subst hc
        have hg : jsGet (.obj allFs) p = some val :=
          hlookup p val (List.mem_cons_self _ _)
        refine ⟨val, ?_, hm⟩
        have hcondL : jsTruthy (JVal.obj allFs) = true ∧
            (jsGet (JVal.obj allFs) p).isSome = true := ⟨rfl, by simp [hg]⟩
        unfold getNestedValue
        rw [if_pos hcondL]
        exact hg
      · simp [hm] at hc
    · cases val with
      | obj fs2 =>
        have hs2 : p ∈ (if (True ∧ ¬ hasDot k = true) ∨
            (("" : String) ≠ "" ∧ (splitDots "").length < 3) then
            collectFs k fs2 else []) := hs
        have hcond : (True ∧ ¬ hasDot k = true) ∨
            (("" : String) ≠ "" ∧ (splitDots "").length < 3) :=
          Or.inl ⟨trivial, by simp [hkdot]⟩
        rw [if_pos hcond] at hs2
        simp only [cleanV, Bool.and_eq_true] at hkclean
        have hwalk1 : walkSegs (.obj allFs) (splitDots k) = some (.obj fs2) := by
          rw [splitDots_single k hkdot]
          exact walkSegs_obj_single allFs k _
            (hlookup k _ (List.mem_cons_self _ _))
        obtain ⟨v, hwv, hmv⟩ := collectFs_resolve fs2 fs2 k (.obj allFs) p
          hkclean.2
          (fun k' v' hm' => lookupField_of_nodup fs2 k' v' hkclean.1 hm')
          hwalk1 hkne hs2
        refine ⟨v, ?_, hmv⟩
        have hpdot : hasDot p = true := collectFs_mem_hasDot fs2 k p hs2 hkne
        have hlit : jsGet (.obj allFs) p = none :=
          lookupField_none_of_clean_keys allFs p hkeys hpdot
        unfold getNestedValue
        rw [if_neg (fun hcon => by rw [hlit] at hcon; simp at hcon)]
        rw [foldl_nestedStep_eq_walkSegs]
        exact hwv
      | null => simp at hs
      | bool b => simp at hs
      | num q => simp at hs
      | str s => simp at hs
      | arr l => simp at hs
    · exact ih allFs p hrestclean
        (fun k' v' hm' => hlookup k' v' (List.mem_cons_of_mem _ hm'))
        hkeys ht

theorem collectRecord_resolve (r : JVal) (p : String)
    (hclean : cleanV r = true) (hp : p ∈ collectRecord r) :
    ∃ v, getNestedValue r p = some v ∧ meaningfulB v = true := by
  cases r with
  | obj fs =>
    simp only [cleanV, Bool.and_eq_true] at hclean
    exact collectFs_top_resolve fs fs p hclean.2
      (fun k v hm => lookupField_of_nodup fs k v hclean.1 hm)
      (fun k v hm => (cleanFields_entry fs k v hclean.2 hm).1)
      hp
  | null => simp [collectRecord] at hp
  | bool b => simp [collectRecord] at hp
  | num q => simp [collectRecord] at hp
  | str s => simp [collectRecord] at hp
  | arr l => simp [collectRecord] at hp

theorem mem_insertStr (x y : String) (l : List String) :
    y ∈ insertStr x l ↔ y = x ∨ y ∈ l := by
  induction l with
  | nil => simp [insertStr]
  | cons z zs ih =>
    unfold insertStr
    by_cases h1 : x < z
    · simp [h1, List.mem_cons]
    · by_cases h2 : x = z
      · subst h2
        simp [h1, List.mem_cons]
      · simp only [h1, h2, if_false, List.mem_cons, ih]
        tauto

theorem pairwise_insertStr (x : String) (l : List String)
    (h : l.Pairwise (· < ·)) : (insertStr x l).Pairwise (· < ·) := by
  induction l with
  | nil => simp [insertStr]
  | cons y ys ih =>
    rw [List.pairwise_cons] at h
    unfold insertStr
    by_cases h1 : x < y
    · rw [if_pos h1]
      refine List.pairwise_cons.mpr ⟨?_, List.pairwise_cons.mpr ⟨h.1, h.2⟩⟩
      intro z hz
      rcases List.mem_cons.mp hz with rfl | hz
      · exact h1
      · exact lt_trans h1 (h.1 z hz)
    · by_cases h2 : x = y
      · rw [if_neg h1, if_pos h2]
        exact List.pairwise_cons.mpr ⟨h.1, h.2⟩
      · rw [if_neg h1, if_neg h2]
        refine List.pairwise_cons.mpr ⟨?_, ih h.2⟩
        intro z hz
        rcases (mem_insertStr x z ys).mp hz with rfl | hz
        · exact lt_of_le_of_ne (not_lt.mp h1) (Ne.symm h2)
        · exact h.1 z hz

theorem pairwise_foldl_insertStr (l : List String) :
    ∀ acc : List String, acc.Pairwise (· < ·) →
      (l.foldl (fun a s => insertStr s a) acc).Pairwise (· < ·) := by
  induction l with
  | nil => intro acc h; exact h
  | cons s l ih =>
    intro acc h
    exact ih _ (pairwise_insertStr s acc h)

theorem mem_foldl_insertStr (l : List String) :
    ∀ (acc : List String) (p : String),
      p ∈ l.foldl (fun a s => insertStr s a) acc ↔ p ∈ acc ∨ p ∈ l := by
  induction l with
  | nil => intro acc p; simp
  | cons s l ih =>
    intro acc p
    rw [List.foldl_cons, ih, mem_insertStr]
    simp [List.mem_cons]
    tauto

theorem mem_allCollected (logs : List JVal) (p : String) :
    p ∈ allCollected logs ↔ ∃ r ∈ logs, p ∈ collectRecord r := by
  induction logs with
  | nil => simp [allCollected]
  | cons r rs ih =>
    simp only [allCollected, List.mem_append, ih]
    constructor
    · rintro (h | ⟨r', hr', hp'⟩)
      · exact ⟨r, List.mem_cons_self _ _, h⟩
      · exact ⟨r', List.mem_cons_of_mem _ hr', hp'⟩
    · rintro ⟨r', hr', hp'⟩
      rcases List.mem_cons.mp hr' with rfl | hr'
      · exact Or.inl hp'
      · exact Or.inr ⟨r', hr', hp'⟩

/-- C1 (corrected as amended).  For every collection of records whose
mapping keys — at every nesting level — are non-empty, dot-free and
unique within each mapping, `extractAllKeys` is lexicographically sorted
and duplicate-free, and every returned path resolves via `getNestedValue`
to a value that is neither null nor the empty string in at least one
record.  (Sortedness and deduplication in fact hold for every collection;
the key hygiene hypothesis is what the counterexample forces on the
resolution part.) -/
theorem extractAllKeys_spec (logs : List JVal) (hne : logs ≠ [])
    (hclean : ∀ r ∈ logs, cleanV r = true) :
    (extractAllKeys logs).Pairwise (· < ·) ∧
    (extractAllKeys logs).Nodup ∧
    ∀ p ∈ extractAllKeys logs, ∃ r ∈ logs, ∃ v,
      getNestedValue r p = some v ∧ meaningfulB v = true := by
  have hpw : (extractAllKeys logs).Pairwise (· < ·) :=
    pairwise_foldl_insertStr _ [] List.Pairwise.nil
  refine ⟨hpw, hpw.imp ne_of_lt, ?_⟩
  intro p hp
  unfold extractAllKeys sortedDedup at hp
  rw [mem_foldl_insertStr] at hp
  simp only [List.not_mem_nil, false_or] at hp
  obtain ⟨r, hr, hpr⟩ := (mem_allCollected logs p).mp hp
  obtain ⟨v, hv, hm⟩ := collectRecord_resolve r p (hclean r hr) hpr
  exact ⟨r, hr, v, hv, hm⟩

set_option maxRecDepth 8192 in
/-- C1 counterexample: one record whose nested mapping has the dotted key
`"b.c"`.  `extractAllKeys` emits the path `"a.b.c"`, but `getNestedValue`
resolves it to `undefined` in the (only) record: the literal lookup
misses and the segment traversal looks for `"b"` then `"c"` instead of
the literal `"b.c"`. -/
theorem extractAllKeys_dotted_cex :
    extractAllKeys [.obj [("a", .obj [("b.c", .num 1)])]] = ["a", "a.b.c"] ∧
    getNestedValue (.obj [("a", .obj [("b.c", .num 1)])]) "a.b.c" = none := by
  constructor
  · with_unfolding_all rfl
  · with_unfolding_all rfl

set_option maxRecDepth 8192 in
/-- C1 witness: a clean two-column record with one nested path; the
returned path `"a.b"` resolves to the meaningful value `1`. -/
theorem extractAllKeys_spec_witness :
    ∃ r ∈ [JVal.obj [("a", JVal.obj [("b", JVal.num 1)]), ("c", JVal.str "x")]],
      ∃ v, getNestedValue r "a.b" = some v ∧ meaningfulB v = true :=
  (extractAllKeys_spec
    [JVal.obj [("a", JVal.obj [("b", JVal.num 1)]), ("c", JVal.str "x")]]
    (by simp)
    (by with_unfolding_all decide)).2.2 "a.b" (by with_unfolding_all decide)

example : strToNumber "-Infinity" = .negInf := by decide
example : strToNumber "" = .fin 0 := by decide
example : strToNumber "  12.5e1 " = .fin 125 := by with_unfolding_all decide
example : strToNumber "12x" = .nan := by decide
example : qToString (3 / 2 : ℚ) = "1.5" := by with_unfolding_all decide
example : qToString (-7 : ℚ) = "-7" := by decide
example :
    cmpSign "k" .ascending (.obj [("k", .str "-Infinity")]) (.obj [("k", .str "-5")]) = -1 := by
  decide
example :
    getNestedValue (.obj [("a", .arr [.str "x"])]) "a.0" = some (.str "x") := by
  rfl
example :
    getNestedValue (.obj [("id", .obj [("orig_h", .str "10.0.0.1")])]) "id.orig_h" =
      some (.str "10.0.0.1") := by
  rfl
example :
    getNestedValue (.obj [("id.orig_h", .str "10.0.0.1")]) "id.orig_h" =
      some (.str "10.0.0.1") := by
  rfl

end LogAnalyzer
